import Mathlib

set_option autoImplicit false

/-!
Verification of the branch-clone reconciliation algorithm of
`fedora/client/pkgdb.py` (`PackageDB.clone_branch` and its helpers).

Python dictionaries are embedded as association lists with first-match
semantics (`dget`, `dset`, `ddel`); a Python `KeyError` raised by a plain
subscript is embedded as `Except.error`, while `has_key`-guarded accesses
stay total.  Nested server records are embedded structurally: a person's
`aclOrder` maps acl names to either `none` (a JSON null, falsy) or
`some c` (a record carrying status code `c`).  The Python `for` loops of
`clone_branch` are embedded as structural recursions over the iterated
lists, threading the mutated dictionaries as accumulators.
-/

namespace PkgDb

section Dict

variable {α β : Type} [DecidableEq α]

/-- Python `d[k]` as a total lookup: first binding of `k`, if any. -/
def dget : List (α × β) → α → Option β
  | [], _ => none
  | (a, b) :: t, k => if a = k then some b else dget t k

/-- Python `d[k] = v`: replace the first binding of `k`, else append. -/
def dset : List (α × β) → α → β → List (α × β)
  | [], k, v => [(k, v)]
  | (a, b) :: t, k, v => if a = k then (k, v) :: t else (a, b) :: dset t k v

/-- Python `del d[k]` with a swallowed `KeyError`: drop the first binding of `k`. -/
def ddel : List (α × β) → α → List (α × β)
  | [], _ => []
  | (a, b) :: t, k => if a = k then t else (a, b) :: ddel t k

/-- The keys of an association list, in order. -/
def keys (d : List (α × β)) : List α := d.map Prod.fst

end Dict

/-- A raw ACL-order mapping from a server record: acl name to either a null
entry (`none`) or an entry carrying a status code (`some c`). -/
abbrev AclOrder := List (String × Option Nat)

/-- A person entry of a package listing (`person['userid']`, `person['aclOrder']`). -/
structure RawPerson where
  userid : Nat
  aclOrder : AclOrder
deriving DecidableEq, Repr

/-- A group entry of the master package listing (`group['name']`, `group['aclOrder']`). -/
structure RawGroup where
  name : String
  aclOrder : AclOrder
deriving DecidableEq, Repr

/-- A package listing of the re-fetched package record: its branch name
(`pkgListing['collection']['branchname']`), its id (`pkgListing['id']`) and
its people. -/
structure PkgListing where
  branchname : String
  listingId : Nat
  people : List RawPerson
deriving DecidableEq, Repr

/-- The status map `pkgdbStatus` of a response: status-code-as-string to
semantic status label. -/
abbrev StatusMap := List (String × String)

/-- Resolved per-person acl state: acl name to status label (`personAcls`). -/
abbrev PersonAcls := List (String × String)

/-- Per-branch acl state: userid to `PersonAcls` (`aclChanges[branch]`). -/
abbrev BranchAcls := List (Nat × PersonAcls)

/-- The full change structure: branch name to `BranchAcls` (`aclChanges`). -/
abbrev AclChanges := List (String × BranchAcls)

/-- Status resolution `pkgdbStatus[str(code)]` as a total lookup; the caller
decides whether a missing key is a `KeyError`. -/
def resolve (sm : StatusMap) (c : Nat) : Option String :=
  dget sm (toString c)

/-- Lines 100-106: a group is approved iff its `aclOrder` has a truthy
`commit` entry whose status resolves to Approved.  A missing `commit` key or
an unknown status code raises `KeyError` (unguarded subscripts). -/
def groupApproval (sm : StatusMap) (g : RawGroup) : Except String Bool :=
  match dget g.aclOrder "commit" with
  | none => .error "KeyError: commit"
  | some none => .ok false
  | some (some c) =>
    match resolve sm c with
    | none => .error "KeyError: statuscode"
    | some s => .ok (s = "Approved")

/-- Loop body accumulator recursion for `buildGroupList`. -/
def buildGroupListGo (sm : StatusMap) : List (String × Bool) → List RawGroup →
    Except String (List (String × Bool))
  | acc, [] => .ok acc
  | acc, g :: t =>
    match groupApproval sm g with
    | .error e => .error e
    | .ok b => buildGroupListGo sm (dset acc g.name b) t

/-- Lines 100-106: build `groupList` over all groups of the master listing. -/
def buildGroupList (sm : StatusMap) (gs : List RawGroup) :
    Except String (List (String × Bool)) :=
  buildGroupListGo sm [] gs

/-- Loop body accumulator recursion for `buildPersonAcls`. -/
def buildPersonAclsGo (sm : StatusMap) : PersonAcls → AclOrder → Except String PersonAcls
  | acc, [] => .ok acc
  | acc, (_, none) :: t => buildPersonAclsGo sm acc t
  | acc, (a, some c) :: t =>
    match resolve sm c with
    | none => .error "KeyError: statuscode"
    | some s => buildPersonAclsGo sm (dset acc a s) t

/-- Lines 120-122: the desired acls of one person, copied from the master
listing; a truthy entry is resolved (`KeyError` on an unknown code) and
stored, a null entry is skipped. -/
def buildPersonAcls (sm : StatusMap) (ord : AclOrder) : Except String PersonAcls :=
  buildPersonAclsGo sm [] ord

/-- Loop body accumulator recursion for `buildDesired`. -/
def buildDesiredGo (sm : StatusMap) : BranchAcls → List RawPerson → Except String BranchAcls
  | acc, [] => .ok acc
  | acc, p :: t =>
    match buildPersonAcls sm p.aclOrder with
    | .error e => .error e
    | .ok pa => buildDesiredGo sm (dset acc p.userid pa) t

/-- Lines 117-122: the desired state for one branch, one `PersonAcls` per
person of the master listing. -/
def buildDesired (sm : StatusMap) (people : List RawPerson) : Except String BranchAcls :=
  buildDesiredGo sm [] people

/-- Loop body accumulator recursion for `initChanges`. -/
def initChangesGo (desired : BranchAcls) : AclChanges → List String → AclChanges
  | acc, [] => acc
  | acc, b :: t => initChangesGo desired (dset acc b desired) t

/-- Lines 115-116: `aclChanges[branch] = ...` for every target branch, each
branch receiving the desired state derived from the master listing. -/
def initChanges (branches : List String) (desired : BranchAcls) : AclChanges :=
  initChangesGo desired [] branches

/-- Loop body accumulator recursion for `obsoletePersonAcls`. -/
def obsoletePersonAclsGo (sm : StatusMap) : PersonAcls → AclOrder → Except String PersonAcls
  | acc, [] => .ok acc
  | acc, (_, none) :: t => obsoletePersonAclsGo sm acc t
  | acc, (a, some c) :: t =>
    match resolve sm c with
    | none => .error "KeyError: statuscode"
    | some s =>
      obsoletePersonAclsGo sm (if s = "Obsolete" then acc else dset acc a "Obsolete") t

/-- Lines 145-148: a person found on the target branch but absent from the
desired state; each truthy acl entry whose status resolves to something other
than Obsolete is marked Obsolete (`KeyError` on an unknown code). -/
def obsoletePersonAcls (sm : StatusMap) (ord : AclOrder) : Except String PersonAcls :=
  obsoletePersonAclsGo sm [] ord

/-- Lines 150-171: one step of the per-person diff, for one current acl entry.
A null current entry whose desired value is absent, falsy or Obsolete is
dropped from the pending writes; a truthy current entry absent from the
desired state is marked Obsolete; a truthy current entry whose status code is
in the status map and resolves to the desired value is dropped
(`has_key`-guarded, so an unknown code keeps the write). -/
def diffAclStep (sm : StatusMap) (pa : PersonAcls) : String × Option Nat → PersonAcls
  | (a, none) =>
    match dget pa a with
    | none => pa
    | some s => if s = "" ∨ s = "Obsolete" then ddel pa a else pa
  | (a, some c) =>
    match dget pa a with
    | none => dset pa a "Obsolete"
    | some s =>
      match resolve sm c with
      | none => pa
      | some cur => if cur = s then ddel pa a else pa

/-- Lines 150-171: the per-person diff over all of the person's current acl
entries. -/
def diffPersonAcls (sm : StatusMap) : PersonAcls → AclOrder → PersonAcls
  | pa, [] => pa
  | pa, e :: t => diffPersonAcls sm (diffAclStep sm pa e) t

/-- Lines 138-171: fold the diff over the people of one fetched listing.  A
person absent from the desired state gets `obsoletePersonAcls`; a person
present gets `diffPersonAcls`. -/
def processListing (sm : StatusMap) : BranchAcls → List RawPerson → Except String BranchAcls
  | ba, [] => .ok ba
  | ba, p :: rest =>
    match dget ba p.userid with
    | none =>
      match obsoletePersonAcls sm p.aclOrder with
      | .error e => .error e
      | .ok pa => processListing sm (dset ba p.userid pa) rest
    | some pa =>
      processListing sm (dset ba p.userid (diffPersonAcls sm pa p.aclOrder)) rest

/-- Lines 130-173: scan the fetched package listings; each listing whose
branch name is among the target branches records its listing id in
`branchIds` and has its people diffed against that branch's pending state. -/
def scanListings (sm : StatusMap) (branches : List String) :
    List (String × Nat) → AclChanges → List PkgListing →
    Except String (List (String × Nat) × AclChanges)
  | bids, ac, [] => .ok (bids, ac)
  | bids, ac, l :: rest =>
    if l.branchname ∈ branches then
      match dget ac l.branchname with
      | none => .error "KeyError: aclChanges branch"
      | some ba =>
        match processListing sm ba l.people with
        | .error e => .error e
        | .ok ba2 =>
          scanListings sm branches (dset bids l.branchname l.listingId)
            (dset ac l.branchname ba2) rest
    else
      scanListings sm branches bids ac rest

/-- Lines 92-97: `del branches[branches.index(master)]` with the `ValueError`
swallowed — remove the first occurrence of the master branch, if any. -/
def delFirst (master : String) : List String → List String
  | [] => []
  | b :: t => if b = master then t else b :: delFirst master t

/-- The inputs of the diff portion of `clone_branch`: the master branch name,
the caller-supplied target list, the status map and master listing of the
first fetch, and the listings of the second (post-provisioning) fetch. -/
structure CloneInput where
  master : String
  branches : List String
  statusMap : StatusMap
  masterGroups : List RawGroup
  masterPeople : List RawPerson
  listings : List PkgListing
deriving DecidableEq, Repr

/-- Lines 92-173 of `clone_branch`: drop the master branch from the target
list, compute the group booleans, build the desired state per target branch,
and diff it against the fetched listings, producing `branchIds` and the final
`aclChanges`. -/
def cloneChangeSet (inp : CloneInput) :
    Except String (List (String × Nat) × AclChanges) :=
  match buildGroupList inp.statusMap inp.masterGroups with
  | .error e => .error e
  | .ok _groupList =>
    match buildDesired inp.statusMap inp.masterPeople with
    | .error e => .error e
    | .ok desired =>
      let bs := delFirst inp.master inp.branches
      scanListings inp.statusMap bs [] (initChanges bs desired) inp.listings

/-- The request data of one `set_acl_status` call (lines 181-184). -/
structure AclWrite where
  pkgid : Nat
  personid : Nat
  newAcl : String
  statusname : String
deriving DecidableEq, Repr

/-- How the write loop can abort: a `KeyError` on `branchIds[branch]`
(line 181) or a failure response from `set_acl_status` (lines 186-187),
which names the offending person and listing id. -/
inductive WriteError
  | missingBranchId
  | writeFailed (personid : Nat) (pkgid : Nat)
deriving DecidableEq, Repr

/-- Lines 178-184: flatten `aclChanges` into the sequence of writes the loop
would attempt, in iteration order; an entry is `none` when `branchIds` lacks
the branch, where the Python loop raises `KeyError` while building `data`. -/
def flatEntries (bids : List (String × Nat)) (ac : AclChanges) : List (Option AclWrite) :=
  ac.flatMap (fun bba =>
    bba.2.flatMap (fun upa =>
      upa.2.map (fun asv =>
        (dget bids bba.1).map (fun i => ⟨i, upa.1, asv.1, asv.2⟩))))

/-- Lines 178-187: execute the writes in order.  `respond w` is the `status`
field of the server response to write `w`; a false status raises immediately
with the offending person and listing id, skipping all later writes.
Returns the writes actually executed and the abort reason, if any. -/
def runWrites (respond : AclWrite → Bool) :
    List (Option AclWrite) → List AclWrite × Option WriteError
  | [] => ([], none)
  | none :: _ => ([], some .missingBranchId)
  | some w :: rest =>
    if respond w then
      let r := runWrites respond rest
      (w :: r.1, r.2)
    else ([], some (.writeFailed w.personid w.pkgid))

/-- The full diff-and-write portion of `clone_branch`: compute the change
structure, then run the write loop against the given responder. -/
def cloneRun (respond : AclWrite → Bool) (inp : CloneInput) :
    Except String (List AclWrite × Option WriteError) :=
  match cloneChangeSet inp with
  | .error e => .error e
  | .ok (bids, ac) => .ok (runWrites respond (flatEntries bids ac))

/-- Hypothetically apply one executed acl write to a raw person record: set
the person's entry for that acl to a raw entry carrying status code `c`
(the caller chooses a `c` that resolves to the written status). -/
def applyWriteToPerson (u : Nat) (a : String) (c : Nat) (p : RawPerson) : RawPerson :=
  if p.userid = u then { p with aclOrder := dset p.aclOrder a (some c) } else p

/-- Hypothetically apply one executed acl write to every person of a listing. -/
def applyWriteToListing (u : Nat) (a : String) (c : Nat) (l : PkgListing) : PkgListing :=
  { l with people := l.people.map (applyWriteToPerson u a c) }

/-- A status map with codes 1 (Approved) and 2 (Obsolete). -/
def sm12 : StatusMap := [("1", "Approved"), ("2", "Obsolete")]

/-- A status map with only code 1 (Approved). -/
def sm1 : StatusMap := [("1", "Approved")]

/-- Scenario: the master has person 1 with only null acl entries, so person 1
is present in the desired state with no pending acls; the fetched target
branch has person 1 holding a commit acl whose status resolves to Obsolete. -/
def inpObsKeep : CloneInput :=
  { master := "devel", branches := ["F-9"], statusMap := sm12,
    masterGroups := [],
    masterPeople := [⟨1, [("watchbugzilla", none), ("commit", none)]⟩],
    listings := [⟨"F-9", 7, [⟨1, [("commit", some 2)]⟩]⟩] }

/-- The same scenario for the second diff run: the one write of the first run
(person 1, commit, Obsolete) applied to the fetched listing, using status
code 2, which resolves to Obsolete. -/
def inpObsKeepApplied : CloneInput :=
  { inpObsKeep with
    listings := inpObsKeep.listings.map (applyWriteToListing 1 "commit" 2) }

/-- Scenario: the caller passes the master branch name twice in the target
list; the fetched record has a listing for the master branch whose one person
is absent from the master-derived desired state. -/
def inpDupMaster : CloneInput :=
  { master := "devel", branches := ["devel", "devel"], statusMap := sm12,
    masterGroups := [],
    masterPeople := [⟨1, [("commit", some 1)]⟩],
    listings := [⟨"devel", 7, [⟨2, [("commit", some 1)]⟩]⟩] }

/-- Scenario: the fetched target branch carries a commit acl with status code
3, which is not a key of the status map; the desired state wants Approved. -/
def inpUnknownCode : CloneInput :=
  { master := "devel", branches := ["F-9"], statusMap := sm1,
    masterGroups := [],
    masterPeople := [⟨1, [("commit", some 1)]⟩],
    listings := [⟨"F-9", 7, [⟨1, [("commit", some 3)]⟩]⟩] }

/-- Scenario: the master has person 1 with a commit acl resolving to
Obsolete; the fetched target branch has no entry for person 1 at all. -/
def inpObsCopy : CloneInput :=
  { master := "devel", branches := ["F-9"], statusMap := sm12,
    masterGroups := [],
    masterPeople := [⟨1, [("commit", some 2)]⟩],
    listings := [⟨"F-9", 7, []⟩] }

section DictLemmas

variable {α β : Type} [DecidableEq α]

theorem dget_dset (d : List (α × β)) (k a : α) (v : β) :
    dget (dset d k v) a = if a = k then some v else dget d a := by
  induction d with
  | nil =>
    by_cases h : a = k
    · simp [dget, dset, h]
    · have hka : ¬ k = a := fun hh => h hh.symm
      simp [dget, dset, h, hka]
  | cons hd t ih =>
    obtain ⟨x, y⟩ := hd
    by_cases hxk : x = k
    · subst hxk
      by_cases hak : a = x
      · simp [dget, dset, hak]
      · have hxa : ¬ x = a := fun hh => hak hh.symm
        simp [dget, dset, hak, hxa]
    · by_cases hxa : x = a
      · subst hxa
        simp [dget, dset, hxk]
      · simp [dget, dset, hxk, hxa, ih]

theorem dget_dset_self (d : List (α × β)) (k : α) (v : β) :
    dget (dset d k v) k = some v := by
  simp [dget_dset]

theorem dget_dset_ne (d : List (α × β)) (k a : α) (v : β) (h : a ≠ k) :
    dget (dset d k v) a = dget d a := by
  simp [dget_dset, h]

theorem dget_ddel_ne (d : List (α × β)) (k a : α) (h : a ≠ k) :
    dget (ddel d k) a = dget d a := by
  induction d with
  | nil => simp [ddel]
  | cons hd t ih =>
    obtain ⟨x, y⟩ := hd
    by_cases hxk : x = k
    · subst hxk
      have hxa : ¬ x = a := fun hh => h hh.symm
      simp [ddel, dget, hxa]
    · by_cases hxa : x = a
      · subst hxa
        simp [ddel, dget, hxk]
      · simp [ddel, dget, hxk, hxa, ih]

theorem mem_keys_iff_dget (d : List (α × β)) (k : α) :
    k ∈ keys d ↔ dget d k ≠ none := by
  induction d with
  | nil => simp [keys, dget]
  | cons hd t ih =>
    obtain ⟨x, y⟩ := hd
    by_cases hxk : x = k
    · subst hxk
      simp [keys, dget]
    · have hkx : ¬ k = x := fun hh => hxk hh.symm
      have hkeys : keys ((x, y) :: t) = x :: keys t := rfl
      have hdg : dget ((x, y) :: t) k = dget t k := by simp [dget, hxk]
      rw [hkeys, List.mem_cons, hdg]
      constructor
      · rintro (h1 | h2)
        · exact absurd h1 hkx
        · exact ih.mp h2
      · intro hne
        exact Or.inr (ih.mpr hne)

theorem dget_eq_none_of_not_mem_keys (d : List (α × β)) (k : α)
    (h : k ∉ keys d) : dget d k = none := by
  by_contra hne
  exact h ((mem_keys_iff_dget d k).mpr hne)

theorem dget_mem (d : List (α × β)) (k : α) (v : β) (h : dget d k = some v) :
    (k, v) ∈ d := by
  induction d with
  | nil => simp [dget] at h
  | cons hd t ih =>
    obtain ⟨x, y⟩ := hd
    by_cases hxk : x = k
    · subst hxk
      have hy : some y = some v := by simpa [dget] using h
      have hyv : y = v := Option.some.inj hy
      subst hyv
      exact List.mem_cons_self _ _
    · simp [dget, hxk] at h
      exact List.mem_cons_of_mem _ (ih h)

theorem keys_ddel_sublist (d : List (α × β)) (k : α) :
    (keys (ddel d k)).Sublist (keys d) := by
  induction d with
  | nil => simp [ddel]
  | cons hd t ih =>
    obtain ⟨x, y⟩ := hd
    by_cases hxk : x = k
    · simp [ddel, keys, hxk]
    · simp only [ddel, keys, hxk, if_neg, List.map_cons]
      exact List.Sublist.cons₂ _ ih

theorem nodup_keys_ddel (d : List (α × β)) (k : α)
    (h : (keys d).Nodup) : (keys (ddel d k)).Nodup :=
  (keys_ddel_sublist d k).nodup h

theorem dget_ddel_self (d : List (α × β)) (k : α) (h : (keys d).Nodup) :
    dget (ddel d k) k = none := by
  induction d with
  | nil => simp [ddel, dget]
  | cons hd t ih =>
    obtain ⟨x, y⟩ := hd
    simp only [keys, List.map_cons, List.nodup_cons] at h
    by_cases hxk : x = k
    · subst hxk
      simp only [ddel, if_pos rfl]
      exact dget_eq_none_of_not_mem_keys t x h.1
    · simp [ddel, dget, hxk]
      exact ih h.2

theorem mem_keys_dset (d : List (α × β)) (k a : α) (v : β) :
    a ∈ keys (dset d k v) ↔ a = k ∨ a ∈ keys d := by
  induction d with
  | nil => simp [dset, keys]
  | cons hd t ih =>
    obtain ⟨x, y⟩ := hd
    by_cases hxk : x = k
    · subst hxk
      by_cases hax : a = x <;> simp [dset, keys, hax]
    · simp [dset, keys, hxk] at *
      tauto

theorem nodup_keys_dset (d : List (α × β)) (k : α) (v : β)
    (h : (keys d).Nodup) : (keys (dset d k v)).Nodup := by
  induction d with
  | nil => simp [dset, keys]
  | cons hd t ih =>
    obtain ⟨x, y⟩ := hd
    simp only [keys, List.map_cons, List.nodup_cons] at h
    by_cases hxk : x = k
    · subst hxk
      have hrw : dset ((x, y) :: t) x v = (x, v) :: t := by simp [dset]
      rw [hrw]
      simp only [keys, List.map_cons, List.nodup_cons]
      exact ⟨h.1, h.2⟩
    · have hrw : dset ((x, y) :: t) k v = (x, y) :: dset t k v := by
        simp [dset, hxk]
      rw [hrw]
      simp only [keys, List.map_cons, List.nodup_cons]
      refine ⟨fun hmem => ?_, ih h.2⟩
      rcases (mem_keys_dset t k x v).mp hmem with h1 | h2
      · exact hxk h1
      · exact h.1 h2

end DictLemmas

theorem delFirst_of_not_mem (master : String) (bs : List String)
    (h : master ∉ bs) : delFirst master bs = bs := by
  induction bs with
  | nil => rfl
  | cons b t ih =>
    have hbm : ¬ b = master := fun hh => h (hh ▸ List.mem_cons_self b t)
    have ht : master ∉ t := fun hh => h (List.mem_cons_of_mem b hh)
    simp [delFirst, hbm, ih ht]

theorem delFirst_append (master : String) (l₁ l₂ : List String)
    (h : master ∉ l₁) : delFirst master (l₁ ++ master :: l₂) = l₁ ++ l₂ := by
  induction l₁ with
  | nil => simp [delFirst]
  | cons b t ih =>
    have hbm : ¬ b = master := fun hh => h (hh ▸ List.mem_cons_self b t)
    have ht : master ∉ t := fun hh => h (List.mem_cons_of_mem b hh)
    simp [delFirst, hbm, ih ht]

/-- C9: `clone_branch` removes exactly the first occurrence of the master
branch identifier from the caller-supplied target list (the caller observes
the shortened list); later duplicate occurrences of the identifier are left
in place, and a list without the identifier is left unchanged. -/
theorem C9_delFirst_first_occurrence (master : String) (bs : List String) :
    (master ∉ bs → delFirst master bs = bs) ∧
    (∀ l₁ l₂, bs = l₁ ++ master :: l₂ → master ∉ l₁ →
      delFirst master bs = l₁ ++ l₂) := by
  refine ⟨fun h => delFirst_of_not_mem master bs h, ?_⟩
  intro l₁ l₂ hsplit h
  subst hsplit
  exact delFirst_append master l₁ l₂ h

/-- Witness for C9: deleting `x` from `[y, x, z, x]` yields `[y, z, x]` — the
first occurrence is removed, the later duplicate survives. -/
theorem C9_witness : delFirst "x" ["y", "x", "z", "x"] = ["y", "z", "x"] :=
  (C9_delFirst_first_occurrence "x" ["y", "x", "z", "x"]).2 ["y"] ["z", "x"]
    rfl (by decide)

/-- C6 counterexample: a group whose truthy `commit` entry carries status
code 9, absent from the status map, makes the group-boolean computation fail
with a `KeyError` instead of yielding `false`. -/
theorem C6_counterexample :
    buildGroupList sm1 [⟨"g1", [("commit", some 9)]⟩] =
      Except.error "KeyError: statuscode" := rfl

/-- C6 amended: the group boolean is `true` iff the group has a non-null
`commit` order entry whose status resolves to Approved, and `false` for a
null entry or a non-Approved resolution; however a group record whose
`aclOrder` lacks the `commit` key, or whose `commit` status code is not in
the status map, raises a `KeyError` instead of yielding `false`. -/
theorem C6_groupApproval_cases (sm : StatusMap) (g : RawGroup) :
    (dget g.aclOrder "commit" = some none → groupApproval sm g = .ok false) ∧
    (∀ c s, dget g.aclOrder "commit" = some (some c) → resolve sm c = some s →
      groupApproval sm g = .ok (decide (s = "Approved"))) ∧
    (dget g.aclOrder "commit" = none →
      groupApproval sm g = .error "KeyError: commit") ∧
    (∀ c, dget g.aclOrder "commit" = some (some c) → resolve sm c = none →
      groupApproval sm g = .error "KeyError: statuscode") := by
  refine ⟨fun h => ?_, fun c s h1 h2 => ?_, fun h => ?_, fun c h1 h2 => ?_⟩
  · simp [groupApproval, h]
  · simp [groupApproval, h1, h2]
  · simp [groupApproval, h]
  · simp [groupApproval, h1, h2]

/-- Witness for C6 amended: a non-null commit entry resolving to Obsolete
yields the boolean `false` (not a failure). -/
theorem C6_witness :
    groupApproval sm12 ⟨"g", [("commit", some 2)]⟩ =
      .ok (decide (("Obsolete" : String) = "Approved")) :=
  (C6_groupApproval_cases sm12 ⟨"g", [("commit", some 2)]⟩).2.1 2 "Obsolete"
    rfl rfl

theorem buildPersonAclsGo_error (sm : StatusMap) :
    ∀ (ord : AclOrder) (acc : PersonAcls),
      (∃ a c, (a, some c) ∈ ord ∧ resolve sm c = none) →
      ∃ e, buildPersonAclsGo sm acc ord = .error e := by
  intro ord
  induction ord with
  | nil =>
    intro acc h
    obtain ⟨a, c, hmem, _⟩ := h
    simp at hmem
  | cons e t ih =>
    intro acc h
    obtain ⟨a, c, hmem, hres⟩ := h
    obtain ⟨a', oc⟩ := e
    cases oc with
    | none =>
      have hm : (a, some c) ∈ t := by
        rcases List.mem_cons.mp hmem with h1 | h2
        · exact absurd (congrArg Prod.snd h1) (by simp)
        · exact h2
      obtain ⟨e, he⟩ := ih acc ⟨a, c, hm, hres⟩
      exact ⟨e, by simpa [buildPersonAclsGo] using he⟩
    | some c' =>
      cases hres' : resolve sm c' with
      | none => exact ⟨"KeyError: statuscode", by simp [buildPersonAclsGo, hres']⟩
      | some s =>
        have hm : (a, some c) ∈ t := by
          rcases List.mem_cons.mp hmem with h1 | h2
          · have hc : c = c' := by
              have := congrArg Prod.snd h1
              simpa using this
            rw [hc] at hres
            rw [hres] at hres'
            cases hres'
          · exact h2
        obtain ⟨e, he⟩ := ih (dset acc a' s) ⟨a, c, hm, hres⟩
        exact ⟨e, by simpa [buildPersonAclsGo, hres'] using he⟩

theorem obsoletePersonAclsGo_error (sm : StatusMap) :
    ∀ (ord : AclOrder) (acc : PersonAcls),
      (∃ a c, (a, some c) ∈ ord ∧ resolve sm c = none) →
      ∃ e, obsoletePersonAclsGo sm acc ord = .error e := by
  intro ord
  induction ord with
  | nil =>
    intro acc h
    obtain ⟨a, c, hmem, _⟩ := h
    simp at hmem
  | cons e t ih =>
    intro acc h
    obtain ⟨a, c, hmem, hres⟩ := h
    obtain ⟨a', oc⟩ := e
    cases oc with
    | none =>
      have hm : (a, some c) ∈ t := by
        rcases List.mem_cons.mp hmem with h1 | h2
        · exact absurd (congrArg Prod.snd h1) (by simp)
        · exact h2
      obtain ⟨e, he⟩ := ih acc ⟨a, c, hm, hres⟩
      exact ⟨e, by simpa [obsoletePersonAclsGo] using he⟩
    | some c' =>
      cases hres' : resolve sm c' with
      | none => exact ⟨"KeyError: statuscode", by simp [obsoletePersonAclsGo, hres']⟩
      | some s =>
        have hm : (a, some c) ∈ t := by
          rcases List.mem_cons.mp hmem with h1 | h2
          · have hc : c = c' := by
              have := congrArg Prod.snd h1
              simpa using this
            rw [hc] at hres
            rw [hres] at hres'
            cases hres'
          · exact h2
        obtain ⟨e, he⟩ :=
          ih (if s = "Obsolete" then acc else dset acc a' "Obsolete") ⟨a, c, hm, hres⟩
        exact ⟨e, by simpa [obsoletePersonAclsGo, hres'] using he⟩

/-- C5 counterexample: during the diff of a target branch's current status
against the desired status, the current entry's status code 3 is not a key of
the status map, yet the computation does not fail — the pending write is
silently kept and the whole diff returns successfully. -/
theorem C5_counterexample :
    resolve sm1 3 = none ∧
    cloneChangeSet inpUnknownCode =
      .ok ([("F-9", 7)], [("F-9", [(1, [("commit", "Approved")])])]) :=
  ⟨rfl, rfl⟩

/-- C5 amended: an unknown status code makes resolution fail with a
`KeyError` at the desired-state-copy site and the revocation site (and at
the group site, per the C6 theorem), but the diff's current-vs-desired
comparison checks key presence first and silently treats an unknown code as
not matching, leaving the pending write in place rather than failing. -/
theorem C5_resolution_sites (sm : StatusMap) :
    (∀ ord : AclOrder, (∃ a c, (a, some c) ∈ ord ∧ resolve sm c = none) →
      (∃ e, buildPersonAcls sm ord = Except.error e) ∧
      (∃ e, obsoletePersonAcls sm ord = Except.error e)) ∧
    (∀ (pa : PersonAcls) (a : String) (c : Nat) (s : String),
      dget pa a = some s → resolve sm c = none →
      diffAclStep sm pa (a, some c) = pa) := by
  constructor
  · intro ord h
    exact ⟨buildPersonAclsGo_error sm ord [] h, obsoletePersonAclsGo_error sm ord [] h⟩
  · intro pa a c s h1 h2
    simp [diffAclStep, h1, h2]

/-- Witness for C5 amended: with status map `[1 ↦ Approved]`, the unresolved
code 3 makes desired-copy and revocation fail, while the diff comparison of a
pending Approved write against current code 3 keeps the write unchanged. -/
theorem C5_witness :
    ((∃ e, buildPersonAcls sm1 [("commit", some 3)] = Except.error e) ∧
      (∃ e, obsoletePersonAcls sm1 [("commit", some 3)] = Except.error e)) ∧
    diffAclStep sm1 [("commit", "Approved")] ("commit", some 3) =
      [("commit", "Approved")] :=
  ⟨(C5_resolution_sites sm1).1 [("commit", some 3)] ⟨"commit", 3, by decide, rfl⟩,
   (C5_resolution_sites sm1).2 [("commit", "Approved")] "commit" 3 "Approved"
     rfl rfl⟩

/-- C1: evaluation of the diff at the failing input.  The master has person 1
with only null acl entries, so person 1's desired state has no `commit` key;
the target branch's current `commit` status resolves to Obsolete; yet the
change-set contains the entry (person 1, commit, Obsolete), whose target
status equals the already-resolved current status — the write is redundant
and contradicts the minimality property. -/
theorem C1_redundant_obsolete_write :
    resolve sm12 2 = some "Obsolete" ∧
    buildDesired sm12 inpObsKeep.masterPeople = .ok [(1, [])] ∧
    cloneChangeSet inpObsKeep =
      .ok ([("F-9", 7)], [("F-9", [(1, [("commit", "Obsolete")])])]) :=
  ⟨rfl, rfl, rfl⟩

theorem runWrites_none_iff (respond : AclWrite → Bool) (ws : List (Option AclWrite)) :
    (runWrites respond ws).2 = none ↔
    ∀ ow ∈ ws, ∃ w, ow = some w ∧ respond w = true := by
  induction ws with
  | nil => simp [runWrites]
  | cons ow t ih =>
    cases ow with
    | none => simp [runWrites]
    | some w =>
      by_cases hr : respond w
      · simp [runWrites, hr, ih]
      · simp [runWrites, hr]

theorem runWrites_exec_of_none (respond : AclWrite → Bool) (ws : List (Option AclWrite))
    (h : (runWrites respond ws).2 = none) :
    (runWrites respond ws).1 = ws.filterMap id := by
  induction ws with
  | nil => simp [runWrites]
  | cons ow t ih =>
    cases ow with
    | none => simp [runWrites] at h
    | some w =>
      by_cases hr : respond w
      · simp [runWrites, hr] at h ⊢
        exact ih h
      · simp [runWrites, hr] at h

theorem runWrites_abort (respond : AclWrite → Bool) :
    ∀ (ws₁ : List AclWrite) (w : AclWrite) (ws₂ : List (Option AclWrite)),
      (∀ u ∈ ws₁, respond u = true) → respond w = false →
      runWrites respond (ws₁.map some ++ some w :: ws₂) =
        (ws₁, some (WriteError.writeFailed w.personid w.pkgid)) := by
  intro ws₁
  induction ws₁ with
  | nil =>
    intro w ws₂ _ hw
    simp [runWrites, hw]
  | cons u t ih =>
    intro w ws₂ hall hw
    have hu : respond u = true := hall u (List.mem_cons_self u t)
    have ht : ∀ v ∈ t, respond v = true := fun v hv => hall v (List.mem_cons_of_mem u hv)
    simp only [List.map_cons, List.cons_append, runWrites, hu, if_pos,
      List.append_eq]
    rw [ih w ws₂ ht hw]

theorem runWrites_exec_mem (respond : AclWrite → Bool) (ws : List (Option AclWrite))
    (w : AclWrite) (h : w ∈ (runWrites respond ws).1) : some w ∈ ws := by
  induction ws with
  | nil => simp [runWrites] at h
  | cons ow t ih =>
    cases ow with
    | none => simp [runWrites] at h
    | some u =>
      by_cases hr : respond u
      · simp only [runWrites, hr, if_pos] at h
        rcases List.mem_cons.mp h with h1 | h2
        · subst h1
          exact List.mem_cons_self _ _
        · exact List.mem_cons_of_mem _ (ih h2)
      · simp [runWrites, hr] at h

theorem obsoletePersonAclsGo_frame (sm : StatusMap) (a : String) :
    ∀ (ord : AclOrder) (acc pa : PersonAcls),
      obsoletePersonAclsGo sm acc ord = .ok pa →
      a ∉ keys ord →
      dget pa a = dget acc a := by
  intro ord
  induction ord with
  | nil =>
    intro acc pa h _
    simp only [obsoletePersonAclsGo, Except.ok.injEq] at h
    rw [h]
  | cons e t ih =>
    intro acc pa h hmem
    obtain ⟨a', oc⟩ := e
    simp only [keys, List.map_cons, List.mem_cons, not_or] at hmem
    have hmt : a ∉ keys t := by
      simpa [keys] using hmem.2
    cases oc with
    | none =>
      simp only [obsoletePersonAclsGo] at h
      exact ih acc pa h hmt
    | some c =>
      cases hres : resolve sm c with
      | none => simp [obsoletePersonAclsGo, hres] at h
      | some s =>
        simp only [obsoletePersonAclsGo, hres] at h
        by_cases hs : s = "Obsolete"
        · rw [if_pos hs] at h
          exact ih acc pa h hmt
        · rw [if_neg hs] at h
          rw [ih _ pa h hmt]
          exact dget_dset_ne acc a' a "Obsolete" hmem.1

theorem obsoletePersonAclsGo_val (sm : StatusMap) :
    ∀ (ord : AclOrder) (acc pa : PersonAcls),
      obsoletePersonAclsGo sm acc ord = .ok pa →
      ∀ a s, dget pa a = some s → dget acc a = some s ∨ s = "Obsolete" := by
  intro ord
  induction ord with
  | nil =>
    intro acc pa h a s hget
    simp only [obsoletePersonAclsGo, Except.ok.injEq] at h
    rw [h]
    exact Or.inl hget
  | cons e t ih =>
    intro acc pa h a s hget
    obtain ⟨a', oc⟩ := e
    cases oc with
    | none =>
      simp only [obsoletePersonAclsGo] at h
      exact ih acc pa h a s hget
    | some c =>
      cases hres : resolve sm c with
      | none => simp [obsoletePersonAclsGo, hres] at h
      | some s' =>
        simp only [obsoletePersonAclsGo, hres] at h
        by_cases hs : s' = "Obsolete"
        · rw [if_pos hs] at h
          exact ih acc pa h a s hget
        · rw [if_neg hs] at h
          rcases ih _ pa h a s hget with h1 | h2
          · rw [dget_dset] at h1
            by_cases hak : a = a'
            · rw [if_pos hak] at h1
              exact Or.inr (Option.some.inj h1).symm
            · rw [if_neg hak] at h1
              exact Or.inl h1
          · exact Or.inr h2

theorem obsoletePersonAclsGo_set (sm : StatusMap) :
    ∀ (ord : AclOrder) (acc pa : PersonAcls) (a : String) (c : Nat) (s : String),
      obsoletePersonAclsGo sm acc ord = .ok pa →
      (keys ord).Nodup →
      (a, some c) ∈ ord → resolve sm c = some s → s ≠ "Obsolete" →
      dget pa a = some "Obsolete" := by
  intro ord
  induction ord with
  | nil =>
    intro acc pa a c s _ _ hmem
    simp at hmem
  | cons e t ih =>
    intro acc pa a c s h hnd hmem hres hs
    obtain ⟨a', oc⟩ := e
    simp only [keys, List.map_cons, List.nodup_cons] at hnd
    rcases List.mem_cons.mp hmem with h1 | h2
    · have ha : a' = a := (congrArg Prod.fst h1).symm
      have hc : oc = some c := (congrArg Prod.snd h1).symm
      subst hc
      rw [ha] at h hnd
      simp only [obsoletePersonAclsGo, hres] at h
      rw [if_neg hs] at h
      have hmt : a ∉ keys t := by
        simpa [keys] using hnd.1
      rw [obsoletePersonAclsGo_frame sm a t _ pa h hmt]
      exact dget_dset_self acc a "Obsolete"
    · have hat : a ∈ keys t := by
        simp only [keys, List.mem_map]
        exact ⟨(a, some c), h2, rfl⟩
      have hnt : (keys t).Nodup := by
        simpa [keys] using hnd.2
      cases oc with
      | none =>
        simp only [obsoletePersonAclsGo] at h
        exact ih acc pa a c s h hnt h2 hres hs
      | some c' =>
        cases hres' : resolve sm c' with
        | none => simp [obsoletePersonAclsGo, hres'] at h
        | some s' =>
          simp only [obsoletePersonAclsGo, hres'] at h
          by_cases hs' : s' = "Obsolete"
          · rw [if_pos hs'] at h
            exact ih acc pa a c s h hnt h2 hres hs
          · rw [if_neg hs'] at h
            exact ih _ pa a c s h hnt h2 hres hs

theorem obsoletePersonAclsGo_keep (sm : StatusMap) :
    ∀ (ord : AclOrder) (acc pa : PersonAcls) (a : String),
      obsoletePersonAclsGo sm acc ord = .ok pa →
      (keys ord).Nodup →
      ((a, (none : Option Nat)) ∈ ord ∨
        ∃ c, (a, some c) ∈ ord ∧ resolve sm c = some "Obsolete") →
      dget pa a = dget acc a := by
  intro ord
  induction ord with
  | nil =>
    intro acc pa a _ _ hmem
    rcases hmem with h1 | ⟨c, h2, _⟩ <;> simp_all
  | cons e t ih =>
    intro acc pa a h hnd hmem
    obtain ⟨a', oc⟩ := e
    simp only [keys, List.map_cons, List.nodup_cons] at hnd
    have hnt : (keys t).Nodup := by
      simpa [keys] using hnd.2
    by_cases hhead : a' = a
    · subst hhead
      have hmt : a' ∉ keys t := by
        simpa [keys] using hnd.1
      rcases hmem with h1 | ⟨c, h2, hres⟩
      · rcases List.mem_cons.mp h1 with hh | hh
        · have hoc : oc = none := by
            have := congrArg Prod.snd hh
            simpa using this.symm
          subst hoc
          simp only [obsoletePersonAclsGo] at h
          exact obsoletePersonAclsGo_frame sm a' t acc pa h hmt
        · exact absurd (by simp only [keys, List.mem_map]; exact ⟨_, hh, rfl⟩) hmt
      · rcases List.mem_cons.mp h2 with hh | hh
        · have hoc : oc = some c := by
            have := congrArg Prod.snd hh
            simpa using this.symm
          subst hoc
          simp only [obsoletePersonAclsGo, hres, if_true] at h
          exact obsoletePersonAclsGo_frame sm a' t acc pa h hmt
        · exact absurd (by simp only [keys, List.mem_map]; exact ⟨_, hh, rfl⟩) hmt
    · have hmemt : ((a, (none : Option Nat)) ∈ t ∨
          ∃ c, (a, some c) ∈ t ∧ resolve sm c = some "Obsolete") := by
        rcases hmem with h1 | ⟨c, h2, hres⟩
        · rcases List.mem_cons.mp h1 with hh | hh
          · exact absurd (congrArg Prod.fst hh).symm hhead
          · exact Or.inl hh
        · rcases List.mem_cons.mp h2 with hh | hh
          · exact absurd (congrArg Prod.fst hh).symm hhead
          · exact Or.inr ⟨c, hh, hres⟩
      cases oc with
      | none =>
        simp only [obsoletePersonAclsGo] at h
        exact ih acc pa a h hnt hmemt
      | some c' =>
        cases hres' : resolve sm c' with
        | none => simp [obsoletePersonAclsGo, hres'] at h
        | some s' =>
          simp only [obsoletePersonAclsGo, hres'] at h
          by_cases hs' : s' = "Obsolete"
          · rw [if_pos hs'] at h
            exact ih acc pa a h hnt hmemt
          · rw [if_neg hs'] at h
            rw [ih _ pa a h hnt hmemt]
            exact dget_dset_ne acc a' a "Obsolete" (fun hh => hhead hh.symm)

theorem obsoletePersonAclsGo_nodup (sm : StatusMap) :
    ∀ (ord : AclOrder) (acc pa : PersonAcls),
      obsoletePersonAclsGo sm acc ord = .ok pa →
      (keys acc).Nodup → (keys pa).Nodup := by
  intro ord
  induction ord with
  | nil =>
    intro acc pa h hacc
    simp only [obsoletePersonAclsGo, Except.ok.injEq] at h
    rw [← h]
    exact hacc
  | cons e t ih =>
    intro acc pa h hacc
    obtain ⟨a', oc⟩ := e
    cases oc with
    | none =>
      simp only [obsoletePersonAclsGo] at h
      exact ih acc pa h hacc
    | some c =>
      cases hres : resolve sm c with
      | none => simp [obsoletePersonAclsGo, hres] at h
      | some s =>
        simp only [obsoletePersonAclsGo, hres] at h
        by_cases hs : s = "Obsolete"
        · rw [if_pos hs] at h
          exact ih acc pa h hacc
        · rw [if_neg hs] at h
          exact ih _ pa h (nodup_keys_dset acc a' "Obsolete" hacc)

theorem processListing_frame (sm : StatusMap) (u : Nat) :
    ∀ (people : List RawPerson) (ba ba' : BranchAcls),
      processListing sm ba people = .ok ba' →
      u ∉ people.map RawPerson.userid →
      dget ba' u = dget ba u := by
  intro people
  induction people with
  | nil =>
    intro ba ba' h _
    simp only [processListing, Except.ok.injEq] at h
    rw [h]
  | cons p rest ih =>
    intro ba ba' h hmem
    simp only [List.map_cons, List.mem_cons, not_or] at hmem
    simp only [processListing] at h
    cases hget : dget ba p.userid with
    | none =>
      rw [hget] at h
      cases hobs : obsoletePersonAcls sm p.aclOrder with
      | error e => rw [hobs] at h; cases h
      | ok pa =>
        rw [hobs] at h
        rw [ih _ ba' h hmem.2]
        exact dget_dset_ne ba p.userid u pa hmem.1
    | some pa =>
      rw [hget] at h
      rw [ih _ ba' h hmem.2]
      exact dget_dset_ne ba p.userid u _ hmem.1

theorem processListing_absent (sm : StatusMap) :
    ∀ (people : List RawPerson) (ba ba' : BranchAcls) (p : RawPerson),
      processListing sm ba people = .ok ba' →
      p ∈ people →
      (people.map RawPerson.userid).Nodup →
      dget ba p.userid = none →
      ∃ pa, obsoletePersonAcls sm p.aclOrder = .ok pa ∧
        dget ba' p.userid = some pa := by
  intro people
  induction people with
  | nil =>
    intro ba ba' p _ hmem
    simp at hmem
  | cons q rest ih =>
    intro ba ba' p h hmem hnd habs
    simp only [List.map_cons, List.nodup_cons] at hnd
    simp only [processListing] at h
    rcases List.mem_cons.mp hmem with hp | hp
    · subst hp
      rw [habs] at h
      cases hobs : obsoletePersonAcls sm p.aclOrder with
      | error e => rw [hobs] at h; cases h
      | ok pa =>
        rw [hobs] at h
        refine ⟨pa, rfl, ?_⟩
        rw [processListing_frame sm p.userid rest _ ba' h hnd.1]
        exact dget_dset_self ba p.userid pa
    · have hne : q.userid ≠ p.userid := by
        intro hh
        exact hnd.1 (hh ▸ List.mem_map_of_mem RawPerson.userid hp)
      have habs2 : ∀ ba2 : PersonAcls, dget (dset ba q.userid ba2) p.userid = none := by
        intro ba2
        rw [dget_dset_ne ba q.userid p.userid ba2 (fun hh => hne hh.symm)]
        exact habs
      cases hget : dget ba q.userid with
      | none =>
        rw [hget] at h
        cases hobs : obsoletePersonAcls sm q.aclOrder with
        | error e => rw [hobs] at h; cases h
        | ok pa =>
          rw [hobs] at h
          exact ih _ ba' p h hp hnd.2 (habs2 pa)
      | some pa =>
        rw [hget] at h
        exact ih _ ba' p h hp hnd.2 (habs2 _)

/-- C3: for a person present on the fetched target branch but entirely
absent from the desired (master-derived) state, the diff yields exactly the
revocation set: each permission whose current entry is non-null and resolves
to a status other than Obsolete is mapped to Obsolete (one entry each, the
pending keys being duplicate-free); permissions with null entries or with a
status already resolving to Obsolete get no entry; and no status other than
Obsolete is ever assigned to such a person. -/
theorem C3_revocation (sm : StatusMap) (people : List RawPerson)
    (ba ba' : BranchAcls) (p : RawPerson)
    (hok : processListing sm ba people = .ok ba')
    (hmem : p ∈ people)
    (hnd : (people.map RawPerson.userid).Nodup)
    (habs : dget ba p.userid = none)
    (horder : (keys p.aclOrder).Nodup) :
    ∃ pa, obsoletePersonAcls sm p.aclOrder = .ok pa ∧
      dget ba' p.userid = some pa ∧
      (keys pa).Nodup ∧
      (∀ a c s, (a, some c) ∈ p.aclOrder → resolve sm c = some s →
        s ≠ "Obsolete" → dget pa a = some "Obsolete") ∧
      (∀ a, (a, (none : Option Nat)) ∈ p.aclOrder → dget pa a = none) ∧
      (∀ a c, (a, some c) ∈ p.aclOrder → resolve sm c = some "Obsolete" →
        dget pa a = none) ∧
      (∀ a s, dget pa a = some s → s = "Obsolete") := by
  obtain ⟨pa, hobs, hget⟩ := processListing_absent sm people ba ba' p hok hmem hnd habs
  have hgo : obsoletePersonAclsGo sm [] p.aclOrder = .ok pa := hobs
  refine ⟨pa, hobs, hget, ?_, ?_, ?_, ?_, ?_⟩
  · exact obsoletePersonAclsGo_nodup sm p.aclOrder [] pa hgo (by simp [keys])
  · intro a c s ha hres hs
    exact obsoletePersonAclsGo_set sm p.aclOrder [] pa a c s hgo horder ha hres hs
  · intro a ha
    rw [obsoletePersonAclsGo_keep sm p.aclOrder [] pa a hgo horder (Or.inl ha)]
    rfl
  · intro a c ha hres
    rw [obsoletePersonAclsGo_keep sm p.aclOrder [] pa a hgo horder
      (Or.inr ⟨c, ha, hres⟩)]
    rfl
  · intro a s hgets
    rcases obsoletePersonAclsGo_val sm p.aclOrder [] pa hgo a s hgets with h1 | h2
    · simp [dget] at h1
    · exact h2

/-- Witness for C3: person 2 (absent from the empty desired state) holding
commit (Approved), build (null) and approveacls (Obsolete) yields exactly the
single revocation entry commit ↦ Obsolete. -/
theorem C3_witness :
    ∃ pa, obsoletePersonAcls sm12
        [("commit", some 1), ("build", none), ("approveacls", some 2)] = .ok pa ∧
      dget pa "commit" = some "Obsolete" ∧
      dget pa "build" = none ∧
      dget pa "approveacls" = none := by
  obtain ⟨pa, h1, _h2, _h3, h4, h5, h6, _h7⟩ := C3_revocation sm12
    [⟨2, [("commit", some 1), ("build", none), ("approveacls", some 2)]⟩]
    [] [(2, [("commit", "Obsolete")])]
    ⟨2, [("commit", some 1), ("build", none), ("approveacls", some 2)]⟩
    rfl (List.mem_singleton.mpr rfl) (by decide) rfl (by decide)
  refine ⟨pa, h1, ?_, ?_, ?_⟩
  · exact h4 "commit" 1 "Approved" (by decide) rfl (by decide)
  · exact h5 "build" (by decide)
  · exact h6 "approveacls" 2 (by decide) rfl

/-- C8: the write loop executes the change-set entries one by one, in order;
it finishes without error exactly when every attempted entry has a resolved
branch id and a true-status response (in which case every entry was
executed); and at the first false-status response it aborts immediately with
an error naming the offending person and listing id, executing exactly the
preceding writes and none of the later ones. -/
theorem C8_write_loop (respond : AclWrite → Bool) (ws : List (Option AclWrite)) :
    ((runWrites respond ws).2 = none ↔
      ∀ ow ∈ ws, ∃ w, ow = some w ∧ respond w = true) ∧
    ((runWrites respond ws).2 = none →
      (runWrites respond ws).1 = ws.filterMap id) ∧
    (∀ (ws₁ : List AclWrite) (w : AclWrite) (ws₂ : List (Option AclWrite)),
      ws = ws₁.map some ++ some w :: ws₂ →
      (∀ u ∈ ws₁, respond u = true) → respond w = false →
      runWrites respond ws = (ws₁, some (WriteError.writeFailed w.personid w.pkgid))) := by
  refine ⟨runWrites_none_iff respond ws, runWrites_exec_of_none respond ws, ?_⟩
  intro ws₁ w ws₂ hsplit hall hw
  subst hsplit
  exact runWrites_abort respond ws₁ w ws₂ hall hw

/-- Witness for C8: with a responder that fails for person 2, a three-entry
sequence aborts at the second entry, executing only the first write and
naming person 2 and listing 7 in the error. -/
theorem C8_witness :
    runWrites (fun w => w.personid == 1)
      [some ⟨7, 1, "commit", "Approved"⟩, some ⟨7, 2, "commit", "Obsolete"⟩,
        some ⟨8, 3, "watchbugzilla", "Approved"⟩] =
      ([⟨7, 1, "commit", "Approved"⟩], some (WriteError.writeFailed 2 7)) :=
  (C8_write_loop (fun w => w.personid == 1)
      [some ⟨7, 1, "commit", "Approved"⟩, some ⟨7, 2, "commit", "Obsolete"⟩,
        some ⟨8, 3, "watchbugzilla", "Approved"⟩]).2.2
    [⟨7, 1, "commit", "Approved"⟩] ⟨7, 2, "commit", "Obsolete"⟩
    [some ⟨8, 3, "watchbugzilla", "Approved"⟩] rfl (by decide) (by decide)

theorem cloneChangeSet_ok_elim (inp : CloneInput) (bids : List (String × Nat))
    (ac : AclChanges) (hok : cloneChangeSet inp = .ok (bids, ac)) :
    ∃ gl desired, buildGroupList inp.statusMap inp.masterGroups = .ok gl ∧
      buildDesired inp.statusMap inp.masterPeople = .ok desired ∧
      scanListings inp.statusMap (delFirst inp.master inp.branches) []
        (initChanges (delFirst inp.master inp.branches) desired)
        inp.listings = .ok (bids, ac) := by
  cases hgl : buildGroupList inp.statusMap inp.masterGroups with
  | error e =>
    rw [cloneChangeSet, hgl] at hok
    cases hok
  | ok gl =>
    cases hbd : buildDesired inp.statusMap inp.masterPeople with
    | error e =>
      rw [cloneChangeSet, hgl, hbd] at hok
      cases hok
    | ok desired =>
      rw [cloneChangeSet, hgl, hbd] at hok
      exact ⟨gl, desired, rfl, rfl, hok⟩

theorem delFirst_count_le_one (master : String) (bs : List String)
    (h : bs.count master ≤ 1) : master ∉ delFirst master bs := by
  induction bs with
  | nil => simp [delFirst]
  | cons b t ih =>
    by_cases hb : b = master
    · subst hb
      rw [List.count_cons_self] at h
      have hzero : t.count b = 0 := Nat.le_zero.mp (Nat.lt_succ_iff.mp (Nat.lt_of_lt_of_le (Nat.lt_succ_of_le (Nat.le_refl _)) h))
      simp only [delFirst, if_pos rfl]
      exact List.count_eq_zero.mp hzero
    · have hbm : master ≠ b := fun hh => hb hh.symm
      rw [List.count_cons_of_ne hbm] at h
      simp only [delFirst, if_neg hb]
      intro hmem
      rcases List.mem_cons.mp hmem with h1 | h2
      · exact hbm h1
      · exact ih h h2

theorem initChangesGo_keys (desired : BranchAcls) (b : String) :
    ∀ (bs : List String) (acc : AclChanges),
      b ∉ bs → b ∉ keys acc → b ∉ keys (initChangesGo desired acc bs) := by
  intro bs
  induction bs with
  | nil =>
    intro acc _ hacc
    exact hacc
  | cons x t ih =>
    intro acc hbs hacc
    simp only [List.mem_cons, not_or] at hbs
    simp only [initChangesGo]
    refine ih (dset acc x desired) hbs.2 ?_
    intro hmem
    rcases (mem_keys_dset acc x b desired).mp hmem with h1 | h2
    · exact hbs.1 h1
    · exact hacc h2

theorem scanListings_keys (sm : StatusMap) (bs : List String) (b : String) :
    ∀ (listings : List PkgListing) (bids0 : List (String × Nat)) (ac0 : AclChanges)
      (bids' : List (String × Nat)) (ac' : AclChanges),
      scanListings sm bs bids0 ac0 listings = .ok (bids', ac') →
      b ∉ bs → b ∉ keys ac0 → b ∉ keys bids0 →
      b ∉ keys ac' ∧ b ∉ keys bids' := by
  intro listings
  induction listings with
  | nil =>
    intro bids0 ac0 bids' ac' h _ hac hbids
    simp only [scanListings, Except.ok.injEq, Prod.mk.injEq] at h
    rw [← h.1, ← h.2]
    exact ⟨hac, hbids⟩
  | cons l rest ih =>
    intro bids0 ac0 bids' ac' h hbs hac hbids
    by_cases hin : l.branchname ∈ bs
    · have hne : l.branchname ≠ b := fun hh => hbs (hh ▸ hin)
      cases hget : dget ac0 l.branchname with
      | none =>
        simp only [scanListings, hin, if_true, hget] at h
        cases h
      | some ba =>
        cases hpl : processListing sm ba l.people with
        | error e =>
          simp only [scanListings, hin, if_true, hget, hpl] at h
          cases h
        | ok ba2 =>
          simp only [scanListings, hin, if_true, hget, hpl] at h
          refine ih _ _ bids' ac' h hbs ?_ ?_
          · intro hmem
            rcases (mem_keys_dset ac0 l.branchname b ba2).mp hmem with h1 | h2
            · exact hne h1.symm
            · exact hac h2
          · intro hmem
            rcases (mem_keys_dset bids0 l.branchname b l.listingId).mp hmem with h1 | h2
            · exact hne h1.symm
            · exact hbids h2
    · simp only [scanListings, hin, if_false] at h
      exact ih _ _ bids' ac' h hbs hac hbids

/-- C4 counterexample: when the caller lists the master branch twice, only
the first occurrence is deleted; the master branch is then diffed and
written like a target branch — the final change-set carries entries under
the master identifier, and the writes against the master listing id 7 are
executed. -/
theorem C4_counterexample :
    inpDupMaster.master = "devel" ∧
    inpDupMaster.branches = ["devel", "devel"] ∧
    cloneChangeSet inpDupMaster =
      .ok ([("devel", 7)],
        [("devel", [(1, [("commit", "Approved")]), (2, [("commit", "Obsolete")])])]) ∧
    cloneRun (fun _ => true) inpDupMaster =
      .ok ([⟨7, 1, "commit", "Approved"⟩, ⟨7, 2, "commit", "Obsolete"⟩], none) ∧
    inpDupMaster.master ∈
      keys ([("devel", [(1, [("commit", "Approved")]),
        (2, [("commit", "Obsolete")])])] : AclChanges) :=
  ⟨rfl, rfl, rfl, rfl, by decide⟩

/-- C4 amended: `clone_branch` deletes only the first occurrence of the
master identifier; provided the master identifier appears at most once in
the caller-supplied target list, neither the final change structure nor the
recorded branch ids mention the master branch. -/
theorem C4_master_excluded_when_unique (inp : CloneInput)
    (bids : List (String × Nat)) (ac : AclChanges)
    (hcount : inp.branches.count inp.master ≤ 1)
    (hok : cloneChangeSet inp = .ok (bids, ac)) :
    inp.master ∉ keys ac ∧ inp.master ∉ keys bids := by
  obtain ⟨gl, desired, _, _, hscan⟩ := cloneChangeSet_ok_elim inp bids ac hok
  have hnm : inp.master ∉ delFirst inp.master inp.branches :=
    delFirst_count_le_one inp.master inp.branches hcount
  have hinit : inp.master ∉ keys (initChanges (delFirst inp.master inp.branches) desired) :=
    initChangesGo_keys desired inp.master (delFirst inp.master inp.branches) [] hnm
      (by simp [keys])
  exact scanListings_keys inp.statusMap (delFirst inp.master inp.branches)
    inp.master inp.listings [] _ bids ac hscan hnm hinit (by simp [keys])

/-- Witness for C4 amended: for the input whose target list `[F-9]` does not
mention the master `devel`, the change structure and branch ids exclude the
master identifier. -/
theorem C4_witness :
    ("devel" : String) ∉ keys ([("F-9", [(1, [("commit", "Obsolete")])])] : AclChanges) ∧
    ("devel" : String) ∉ keys ([("F-9", 7)] : List (String × Nat)) :=
  C4_master_excluded_when_unique inpObsCopy [("F-9", 7)]
    [("F-9", [(1, [("commit", "Obsolete")])])] (by decide) rfl

theorem scanListings_bids_spec (sm : StatusMap) (bs : List String) :
    ∀ (listings : List PkgListing) (bids0 : List (String × Nat)) (ac0 : AclChanges)
      (bids' : List (String × Nat)) (ac' : AclChanges),
      scanListings sm bs bids0 ac0 listings = .ok (bids', ac') →
      ∀ b i, dget bids' b = some i →
        dget bids0 b = some i ∨
        (b ∈ bs ∧ ∃ l, l ∈ listings ∧ l.branchname = b ∧ l.listingId = i) := by
  intro listings
  induction listings with
  | nil =>
    intro bids0 ac0 bids' ac' h b i hget
    simp only [scanListings, Except.ok.injEq, Prod.mk.injEq] at h
    rw [← h.1] at hget
    exact Or.inl hget
  | cons l rest ih =>
    intro bids0 ac0 bids' ac' h b i hget
    by_cases hin : l.branchname ∈ bs
    · cases hac : dget ac0 l.branchname with
      | none =>
        simp only [scanListings, hin, if_true, hac] at h
        cases h
      | some ba =>
        cases hpl : processListing sm ba l.people with
        | error e =>
          simp only [scanListings, hin, if_true, hac, hpl] at h
          cases h
        | ok ba2 =>
          simp only [scanListings, hin, if_true, hac, hpl] at h
          rcases ih _ _ bids' ac' h b i hget with h1 | ⟨hb, ll, hll, hlb, hli⟩
          · rw [dget_dset] at h1
            by_cases hbl : b = l.branchname
            · refine Or.inr ⟨hbl ▸ hin, l, List.mem_cons_self l rest, hbl.symm, ?_⟩
              rw [if_pos hbl] at h1
              exact Option.some.inj h1
            · rw [if_neg hbl] at h1
              exact Or.inl h1
          · exact Or.inr ⟨hb, ll, List.mem_cons_of_mem l hll, hlb, hli⟩
    · simp only [scanListings, hin, if_false] at h
      rcases ih _ _ bids' ac' h b i hget with h1 | ⟨hb, ll, hll, hlb, hli⟩
      · exact Or.inl h1
      · exact Or.inr ⟨hb, ll, List.mem_cons_of_mem l hll, hlb, hli⟩

theorem flatEntries_pkgid (bids : List (String × Nat)) (ac : AclChanges)
    (w : AclWrite) (h : some w ∈ flatEntries bids ac) :
    ∃ b, dget bids b = some w.pkgid := by
  simp only [flatEntries, List.mem_flatMap, List.mem_map] at h
  obtain ⟨bba, _hb, upa, _hu, asv, _ha, heq⟩ := h
  cases hg : dget bids bba.1 with
  | none =>
    rw [hg] at heq
    cases heq
  | some i =>
    rw [hg] at heq
    simp only [Option.map_some'] at heq
    refine ⟨bba.1, ?_⟩
    rw [hg]
    have hw := Option.some.inj heq
    rw [← hw]

/-- C7: change-sets are diffed, and acl writes executed, only for target
branches present in both the provisioned target list and the fetched
listings: every recorded branch id belongs to a branch of the (master-free)
target list that some fetched listing carries, and every executed write's
listing id is the recorded id of such a branch — a target branch absent from
the fetched record contributes no executed write. -/
theorem C7_writes_only_fetched_targets (inp : CloneInput) (respond : AclWrite → Bool)
    (bids : List (String × Nat)) (ac : AclChanges)
    (executed : List AclWrite) (err : Option WriteError)
    (hok : cloneChangeSet inp = .ok (bids, ac))
    (hrun : cloneRun respond inp = .ok (executed, err)) :
    (∀ b i, dget bids b = some i →
      b ∈ delFirst inp.master inp.branches ∧
      ∃ l, l ∈ inp.listings ∧ l.branchname = b ∧ l.listingId = i) ∧
    (∀ w ∈ executed, ∃ b, dget bids b = some w.pkgid ∧
      b ∈ delFirst inp.master inp.branches ∧
      b ∈ inp.listings.map PkgListing.branchname) := by
  obtain ⟨gl, desired, _, _, hscan⟩ := cloneChangeSet_ok_elim inp bids ac hok
  have hbids : ∀ b i, dget bids b = some i →
      b ∈ delFirst inp.master inp.branches ∧
      ∃ l, l ∈ inp.listings ∧ l.branchname = b ∧ l.listingId = i := by
    intro b i hget
    rcases scanListings_bids_spec inp.statusMap (delFirst inp.master inp.branches)
      inp.listings [] _ bids ac hscan b i hget with h1 | ⟨hb, ll, hll, hlb, hli⟩
    · cases h1
    · exact ⟨hb, ll, hll, hlb, hli⟩
  refine ⟨hbids, ?_⟩
  intro w hw
  rw [cloneRun, hok] at hrun
  have hexec : executed = (runWrites respond (flatEntries bids ac)).1 := by
    have := Except.ok.inj hrun
    exact (congrArg Prod.fst this).symm
  rw [hexec] at hw
  have hmem : some w ∈ flatEntries bids ac :=
    runWrites_exec_mem respond (flatEntries bids ac) w hw
  obtain ⟨b, hb⟩ := flatEntries_pkgid bids ac w hmem
  obtain ⟨hbs, ll, hll, hlb, _⟩ := hbids b w.pkgid hb
  exact ⟨b, hb, hbs, hlb ▸ List.mem_map_of_mem PkgListing.branchname hll⟩

/-- Witness for C7: on the concrete input whose single listing F-9 (id 7) is
the only fetched target, every branch id and every executed write is
accounted for by the branch F-9. -/
theorem C7_witness :
    (∀ b i, dget [("F-9", 7)] b = some i →
      b ∈ delFirst inpObsCopy.master inpObsCopy.branches ∧
      ∃ l, l ∈ inpObsCopy.listings ∧ l.branchname = b ∧ l.listingId = i) ∧
    (∀ w ∈ [(⟨7, 1, "commit", "Obsolete"⟩ : AclWrite)],
      ∃ b, dget [("F-9", 7)] b = some w.pkgid ∧
        b ∈ delFirst inpObsCopy.master inpObsCopy.branches ∧
        b ∈ inpObsCopy.listings.map PkgListing.branchname) :=
  C7_writes_only_fetched_targets inpObsCopy (fun _ => true) [("F-9", 7)]
    [("F-9", [(1, [("commit", "Obsolete")])])]
    [⟨7, 1, "commit", "Obsolete"⟩] none rfl rfl

theorem buildPersonAclsGo_frame (sm : StatusMap) (a : String) :
    ∀ (ord : AclOrder) (acc pa : PersonAcls),
      buildPersonAclsGo sm acc ord = .ok pa →
      a ∉ keys ord →
      dget pa a = dget acc a := by
  intro ord
  induction ord with
  | nil =>
    intro acc pa h _
    simp only [buildPersonAclsGo, Except.ok.injEq] at h
    rw [h]
  | cons e t ih =>
    intro acc pa h hmem
    obtain ⟨a', oc⟩ := e
    simp only [keys, List.map_cons, List.mem_cons, not_or] at hmem
    have hmt : a ∉ keys t := by
      simpa [keys] using hmem.2
    cases oc with
    | none =>
      simp only [buildPersonAclsGo] at h
      exact ih acc pa h hmt
    | some c =>
      cases hres : resolve sm c with
      | none => simp [buildPersonAclsGo, hres] at h
      | some s =>
        simp only [buildPersonAclsGo, hres] at h
        rw [ih _ pa h hmt]
        exact dget_dset_ne acc a' a s hmem.1

theorem buildPersonAclsGo_set (sm : StatusMap) :
    ∀ (ord : AclOrder) (acc pa : PersonAcls) (a : String) (c : Nat) (s : String),
      buildPersonAclsGo sm acc ord = .ok pa →
      (keys ord).Nodup →
      (a, some c) ∈ ord → resolve sm c = some s →
      dget pa a = some s := by
  intro ord
  induction ord with
  | nil =>
    intro acc pa a c s _ _ hmem
    simp at hmem
  | cons e t ih =>
    intro acc pa a c s h hnd hmem hres
    obtain ⟨a', oc⟩ := e
    simp only [keys, List.map_cons, List.nodup_cons] at hnd
    have hnt : (keys t).Nodup := by
      simpa [keys] using hnd.2
    rcases List.mem_cons.mp hmem with h1 | h2
    · have ha : a' = a := (congrArg Prod.fst h1).symm
      have hc : oc = some c := (congrArg Prod.snd h1).symm
      subst hc
      rw [ha] at h hnd
      simp only [buildPersonAclsGo, hres] at h
      have hmt : a ∉ keys t := by
        simpa [keys] using hnd.1
      rw [buildPersonAclsGo_frame sm a t _ pa h hmt]
      exact dget_dset_self acc a s
    · cases oc with
      | none =>
        simp only [buildPersonAclsGo] at h
        exact ih acc pa a c s h hnt h2 hres
      | some c' =>
        cases hres' : resolve sm c' with
        | none => simp [buildPersonAclsGo, hres'] at h
        | some s' =>
          simp only [buildPersonAclsGo, hres'] at h
          exact ih _ pa a c s h hnt h2 hres

theorem buildDesiredGo_frame (sm : StatusMap) (u : Nat) :
    ∀ (people : List RawPerson) (acc ba : BranchAcls),
      buildDesiredGo sm acc people = .ok ba →
      u ∉ people.map RawPerson.userid →
      dget ba u = dget acc u := by
  intro people
  induction people with
  | nil =>
    intro acc ba h _
    simp only [buildDesiredGo, Except.ok.injEq] at h
    rw [h]
  | cons p rest ih =>
    intro acc ba h hmem
    simp only [List.map_cons, List.mem_cons, not_or] at hmem
    cases hbp : buildPersonAcls sm p.aclOrder with
    | error e => simp [buildDesiredGo, hbp] at h
    | ok pa =>
      simp only [buildDesiredGo, hbp] at h
      rw [ih _ ba h hmem.2]
      exact dget_dset_ne acc p.userid u pa hmem.1

theorem buildDesiredGo_person (sm : StatusMap) :
    ∀ (people : List RawPerson) (acc ba : BranchAcls) (p : RawPerson),
      buildDesiredGo sm acc people = .ok ba →
      p ∈ people →
      (people.map RawPerson.userid).Nodup →
      ∃ pa, buildPersonAcls sm p.aclOrder = .ok pa ∧
        dget ba p.userid = some pa := by
  intro people
  induction people with
  | nil =>
    intro acc ba p _ hmem
    simp at hmem
  | cons q rest ih =>
    intro acc ba p h hmem hnd
    simp only [List.map_cons, List.nodup_cons] at hnd
    rcases List.mem_cons.mp hmem with hp | hp
    · subst hp
      cases hbp : buildPersonAcls sm p.aclOrder with
      | error e => simp [buildDesiredGo, hbp] at h
      | ok pa =>
        simp only [buildDesiredGo, hbp] at h
        refine ⟨pa, rfl, ?_⟩
        rw [buildDesiredGo_frame sm p.userid rest _ ba h hnd.1]
        exact dget_dset_self acc p.userid pa
    · cases hbp : buildPersonAcls sm q.aclOrder with
      | error e => simp [buildDesiredGo, hbp] at h
      | ok pa =>
        simp only [buildDesiredGo, hbp] at h
        exact ih _ ba p h hp hnd.2

theorem initChangesGo_mem (desired : BranchAcls) (b : String) :
    ∀ (bs : List String) (acc : AclChanges),
      (b ∈ bs ∨ dget acc b = some desired) →
      dget (initChangesGo desired acc bs) b = some desired := by
  intro bs
  induction bs with
  | nil =>
    intro acc h
    rcases h with h1 | h2
    · simp at h1
    · exact h2
  | cons x t ih =>
    intro acc h
    simp only [initChangesGo]
    by_cases hxb : b = x
    · refine ih (dset acc x desired) (Or.inr ?_)
      rw [hxb]
      exact dget_dset_self acc x desired
    · rcases h with h1 | h2
      · rcases List.mem_cons.mp h1 with hh | hh
        · exact absurd hh hxb
        · exact ih _ (Or.inl hh)
      · refine ih _ (Or.inr ?_)
        rw [dget_dset_ne acc x b desired hxb]
        exact h2

theorem scanListings_keep (sm : StatusMap) (bs : List String) (b : String)
    (u : Nat) (pa0 : PersonAcls) :
    ∀ (listings : List PkgListing) (bids0 : List (String × Nat)) (ac0 : AclChanges)
      (bids' : List (String × Nat)) (ac' : AclChanges),
      scanListings sm bs bids0 ac0 listings = .ok (bids', ac') →
      (∀ l ∈ listings, u ∉ l.people.map RawPerson.userid) →
      (∃ ba, dget ac0 b = some ba ∧ dget ba u = some pa0) →
      ∃ ba, dget ac' b = some ba ∧ dget ba u = some pa0 := by
  intro listings
  induction listings with
  | nil =>
    intro bids0 ac0 bids' ac' h _ hinv
    simp only [scanListings, Except.ok.injEq, Prod.mk.injEq] at h
    rw [← h.2]
    exact hinv
  | cons l rest ih =>
    intro bids0 ac0 bids' ac' h habs hinv
    have habsl : u ∉ l.people.map RawPerson.userid :=
      habs l (List.mem_cons_self l rest)
    have habsr : ∀ l2 ∈ rest, u ∉ l2.people.map RawPerson.userid :=
      fun l2 h2 => habs l2 (List.mem_cons_of_mem l h2)
    by_cases hin : l.branchname ∈ bs
    · cases hac : dget ac0 l.branchname with
      | none =>
        simp only [scanListings, hin, if_true, hac] at h
        cases h
      | some ba =>
        cases hpl : processListing sm ba l.people with
        | error e =>
          simp only [scanListings, hin, if_true, hac, hpl] at h
          cases h
        | ok ba2 =>
          simp only [scanListings, hin, if_true, hac, hpl] at h
          refine ih _ _ bids' ac' h habsr ?_
          obtain ⟨ba0, hba0, hu0⟩ := hinv
          by_cases hbl : b = l.branchname
          · have hba : ba0 = ba := by
              rw [hbl] at hba0
              rw [hba0] at hac
              exact Option.some.inj hac
            refine ⟨ba2, ?_, ?_⟩
            · rw [hbl]
              exact dget_dset_self ac0 l.branchname ba2
            · rw [processListing_frame sm u l.people ba ba2 hpl habsl]
              exact hba ▸ hu0
          · refine ⟨ba0, ?_, hu0⟩
            rw [dget_dset_ne ac0 l.branchname b ba2 hbl]
            exact hba0
    · simp only [scanListings, hin, if_false] at h
      exact ih _ _ bids' ac' h habsr hinv

theorem scanListings_bids_mono (sm : StatusMap) (bs : List String) (x : String) :
    ∀ (listings : List PkgListing) (bids0 : List (String × Nat)) (ac0 : AclChanges)
      (bids' : List (String × Nat)) (ac' : AclChanges),
      scanListings sm bs bids0 ac0 listings = .ok (bids', ac') →
      (dget bids0 x).isSome → (dget bids' x).isSome := by
  intro listings
  induction listings with
  | nil =>
    intro bids0 ac0 bids' ac' h hs
    simp only [scanListings, Except.ok.injEq, Prod.mk.injEq] at h
    rw [← h.1]
    exact hs
  | cons l rest ih =>
    intro bids0 ac0 bids' ac' h hs
    by_cases hin : l.branchname ∈ bs
    · cases hac : dget ac0 l.branchname with
      | none =>
        simp only [scanListings, hin, if_true, hac] at h
        cases h
      | some ba =>
        cases hpl : processListing sm ba l.people with
        | error e =>
          simp only [scanListings, hin, if_true, hac, hpl] at h
          cases h
        | ok ba2 =>
          simp only [scanListings, hin, if_true, hac, hpl] at h
          refine ih _ _ bids' ac' h ?_
          rw [dget_dset]
          by_cases hxl : x = l.branchname
          · rw [if_pos hxl]
            rfl
          · rw [if_neg hxl]
            exact hs
    · simp only [scanListings, hin, if_false] at h
      exact ih _ _ bids' ac' h hs

theorem scanListings_bids_covers (sm : StatusMap) (bs : List String) :
    ∀ (listings : List PkgListing) (bids0 : List (String × Nat)) (ac0 : AclChanges)
      (bids' : List (String × Nat)) (ac' : AclChanges) (l0 : PkgListing),
      scanListings sm bs bids0 ac0 listings = .ok (bids', ac') →
      l0 ∈ listings → l0.branchname ∈ bs →
      (dget bids' l0.branchname).isSome := by
  intro listings
  induction listings with
  | nil =>
    intro bids0 ac0 bids' ac' l0 _ hmem
    simp at hmem
  | cons l rest ih =>
    intro bids0 ac0 bids' ac' l0 h hmem hbs
    by_cases hin : l.branchname ∈ bs
    · cases hac : dget ac0 l.branchname with
      | none =>
        simp only [scanListings, hin, if_true, hac] at h
        cases h
      | some ba =>
        cases hpl : processListing sm ba l.people with
        | error e =>
          simp only [scanListings, hin, if_true, hac, hpl] at h
          cases h
        | ok ba2 =>
          simp only [scanListings, hin, if_true, hac, hpl] at h
          rcases List.mem_cons.mp hmem with h0 | h0
          · subst h0
            refine scanListings_bids_mono sm bs l0.branchname rest _ _ bids' ac' h ?_
            rw [dget_dset_self bids0 l0.branchname l0.listingId]
            rfl
          · exact ih _ _ bids' ac' l0 h h0 hbs
    · simp only [scanListings, hin, if_false] at h
      rcases List.mem_cons.mp hmem with h0 | h0
      · subst h0
        exact absurd hbs hin
      · exact ih _ _ bids' ac' l0 h h0 hbs

theorem flatEntries_mem_intro (bids : List (String × Nat)) (ac : AclChanges)
    (b : String) (ba : BranchAcls) (u : Nat) (pa : PersonAcls) (a s : String)
    (i : Nat) (hba : (b, ba) ∈ ac) (hpa : (u, pa) ∈ ba) (has : (a, s) ∈ pa)
    (hb : dget bids b = some i) :
    some (⟨i, u, a, s⟩ : AclWrite) ∈ flatEntries bids ac := by
  simp only [flatEntries, List.mem_flatMap, List.mem_map]
  refine ⟨(b, ba), hba, (u, pa), hpa, (a, s), has, ?_⟩
  rw [hb]
  rfl

/-- C10: the desired state copied from the master includes permissions whose
resolved status is Obsolete; if the master has a person with such a
permission and no fetched listing of the package record mentions that
person, then for every target branch returned by the fetch, the final
change structure carries the pending write (person, permission, Obsolete)
and the branch has a recorded listing id — so `clone_branch` issues a write
setting the permission to Obsolete on that branch. -/
theorem C10_obsolete_copied (inp : CloneInput) (bids : List (String × Nat))
    (ac : AclChanges) (b : String) (l0 : PkgListing) (P : RawPerson)
    (a : String) (c : Nat)
    (hok : cloneChangeSet inp = .ok (bids, ac))
    (hb : b ∈ delFirst inp.master inp.branches)
    (hl0 : l0 ∈ inp.listings) (hl0b : l0.branchname = b)
    (habs : ∀ l ∈ inp.listings, P.userid ∉ l.people.map RawPerson.userid)
    (hP : P ∈ inp.masterPeople)
    (hndP : (inp.masterPeople.map RawPerson.userid).Nodup)
    (hacl : (a, some c) ∈ P.aclOrder)
    (hnda : (keys P.aclOrder).Nodup)
    (hres : resolve inp.statusMap c = some "Obsolete") :
    ∃ i, dget bids b = some i ∧
      some (⟨i, P.userid, a, "Obsolete"⟩ : AclWrite) ∈ flatEntries bids ac := by
  obtain ⟨gl, desired, _, hbd, hscan⟩ := cloneChangeSet_ok_elim inp bids ac hok
  obtain ⟨pa0, hbp, hdes⟩ :=
    buildDesiredGo_person inp.statusMap inp.masterPeople [] desired P hbd hP hndP
  have hpa0 : dget pa0 a = some "Obsolete" :=
    buildPersonAclsGo_set inp.statusMap P.aclOrder [] pa0 a c "Obsolete"
      hbp hnda hacl hres
  have hinit : dget (initChanges (delFirst inp.master inp.branches) desired) b =
      some desired :=
    initChangesGo_mem desired b (delFirst inp.master inp.branches) [] (Or.inl hb)
  obtain ⟨baF, hbaF, huF⟩ :=
    scanListings_keep inp.statusMap (delFirst inp.master inp.branches) b
      P.userid pa0 inp.listings [] _ bids ac hscan habs ⟨desired, hinit, hdes⟩
  have hcov : (dget bids b).isSome := by
    have := scanListings_bids_covers inp.statusMap (delFirst inp.master inp.branches)
      inp.listings [] _ bids ac l0 hscan hl0 (hl0b ▸ hb)
    rw [hl0b] at this
    exact this
  obtain ⟨i, hi⟩ := Option.isSome_iff_exists.mp hcov
  refine ⟨i, hi, ?_⟩
  exact flatEntries_mem_intro bids ac b baF P.userid pa0 a "Obsolete" i
    (dget_mem ac b baF hbaF) (dget_mem baF P.userid pa0 huF)
    (dget_mem pa0 a "Obsolete" hpa0) hi

/-- Witness for C10: for the concrete input whose master person 1 holds
commit with status code 2 (Obsolete) and whose fetched F-9 listing has no
people, the write (listing 7, person 1, commit, Obsolete) is pending. -/
theorem C10_witness :
    ∃ i, dget [("F-9", 7)] "F-9" = some i ∧
      some (⟨i, 1, "commit", "Obsolete"⟩ : AclWrite) ∈
        flatEntries [("F-9", 7)] [("F-9", [(1, [("commit", "Obsolete")])])] :=
  C10_obsolete_copied inpObsCopy [("F-9", 7)]
    [("F-9", [(1, [("commit", "Obsolete")])])] "F-9" ⟨"F-9", 7, []⟩
    ⟨1, [("commit", some 2)]⟩ "commit" 2 rfl (by decide)
    (List.mem_singleton.mpr rfl) rfl (by decide)
    (List.mem_singleton.mpr rfl) (by decide) (by decide) (by decide) rfl

/-- C2: evaluation of the diff at the failing input for idempotence.  The
first run emits exactly one write (person 1, commit, Obsolete); applying it
to the fetched state is the identity (the current entry already resolves to
Obsolete), and a second run against the applied state emits the same
non-empty change-set instead of an empty one. -/
theorem C2_not_idempotent :
    cloneChangeSet inpObsKeep =
      .ok ([("F-9", 7)], [("F-9", [(1, [("commit", "Obsolete")])])]) ∧
    flatEntries [("F-9", 7)] [("F-9", [(1, [("commit", "Obsolete")])])] =
      [some ⟨7, 1, "commit", "Obsolete"⟩] ∧
    resolve sm12 2 = some "Obsolete" ∧
    inpObsKeepApplied = inpObsKeep ∧
    cloneChangeSet inpObsKeepApplied =
      .ok ([("F-9", 7)], [("F-9", [(1, [("commit", "Obsolete")])])]) ∧
    ([("F-9", [(1, [("commit", "Obsolete")])])] : AclChanges) ≠ [] :=
  ⟨rfl, rfl, rfl, by decide, rfl, by decide⟩

end PkgDb
